import Mathlib

/-!
Shallow embedding of the Fast-Forward Queue (FFQ) of this repository:
`ffq_init`, `ffq_enqueue`, `ffq_dequeue` from `src/spmc/src/ffq.c`,
`ffq_dequeue_optimized` and its adaptive backoff from the optimized
implementation file, and the argument validation of `parse_args` from
`src/spmc/src/common.c`.

Modelling conventions:
* C `int` fields become `Int`; the C `%` operator on `int` truncates toward
  zero and is embedded as `Int.tmod` (all dividends arising in the executions
  considered here are nonnegative, where `tmod` agrees with `Int.emod`).
* The payload `WeatherData` is a fixed-size trivially-copyable struct; every
  MPI transfer of it moves all seven fields in full through the committed
  `weather_type` datatype, so the payload is embedded as an opaque type
  parameter `P` that is copied wholesale.  The zeroed payload produced by
  `memset` during initialization is passed in as an explicit value `z : P`.
* Each `MPI_Win_lock ... MPI_Win_unlock` epoch is modelled as one atomic
  action on the shared queue region; `MPI_Get` / `MPI_Put` /
  `MPI_Get_accumulate(..., MPI_SUM)` become plain reads, writes and
  read-modify-writes of the corresponding fields.
* `usleep` / `do_work` pauses are recorded in a log of microsecond durations
  (`do_work(10)` contributes 10000 microseconds).
* Unbounded `while` loops receive explicit fuel; a `none` result means the
  loop is still running after that many iterations, never an error return.
-/

namespace FFQ

/-- The `EMPTY_CELL` sentinel: `#define EMPTY_CELL -1`. -/
def EMPTY_CELL : Int := -1

/-- One ring cell, `struct { int rank; int gap; WeatherData data; }`. -/
@[ext]
structure Cell (P : Type) where
  rank : Int
  gap : Int
  data : P

/-- The shared queue region,
`struct { int size; int head; int tail; int lastItemDequeued; Cell cells[]; }`.
`cells` is total over `Int`; the code only ever indexes it with values
`x % size`, which lie in `[0, size)` for the nonnegative `x` that occur. -/
@[ext]
structure FFQueue (P : Type) where
  size : Int
  head : Int
  tail : Int
  lastItemDequeued : Int
  cells : Int → Cell P

variable {P : Type}

/-- Overwrite cell `i` of the region (the target of one cell-field `MPI_Put`
batch). -/
def setCell (q : FFQueue P) (i : Int) (c : Cell P) : FFQueue P :=
  { q with cells := fun j => if j = i then c else q.cells j }

/-- The function `ffq_init`, owner path (`rank == 0`): the region is allocated and
initialized with the given `size`, `head = tail = lastItemDequeued = 0`, and
every cell set to `rank = gap = EMPTY_CELL` with a zeroed payload `z`
(`memset` plus `data.valid = false`).  The C loop only touches indices
`0 ≤ i < size`; giving every index the same initial cell is observationally
identical because no other index is ever accessed.  Note that `ffq_init`
performs no validation of `size` whatsoever. -/
def ffq_init (size : Int) (z : P) : FFQueue P :=
  { size := size, head := 0, tail := 0, lastItemDequeued := 0,
    cells := fun _ => { rank := EMPTY_CELL, gap := EMPTY_CELL, data := z } }

/-- One iteration of the `while (!success)` loop of `ffq_enqueue`, executed
under a single exclusive lock epoch.  `local_tail` is the producer's cached
tail value.  The cell's rank is read; if it is negative the payload is
written followed by the rank publish (`rank = local_tail`), otherwise
`gap = local_tail` is written.  Both branches then write
`tail = local_tail + 1` back into the region.  Returns the `success` flag of
the iteration and the updated region. -/
def ffq_enqueue_iter (q : FFQueue P) (item : P) (local_tail : Int) :
    Bool × FFQueue P :=
  let idx := local_tail.tmod q.size
  let c := q.cells idx
  if c.rank < 0 then
    (true, { setCell q idx { c with data := item, rank := local_tail } with
             tail := local_tail + 1 })
  else
    (false, { setCell q idx { c with gap := local_tail } with
              tail := local_tail + 1 })

/-- The `while (!success)` loop of `ffq_enqueue` with explicit fuel; `none`
means the loop has not succeeded within `fuel` iterations (the C loop would
still be spinning). -/
def ffq_enqueue_loop : Nat → FFQueue P → P → Int → Option (FFQueue P)
  | 0, _, _, _ => none
  | fuel + 1, q, item, local_tail =>
    match ffq_enqueue_iter q item local_tail with
    | (true, q') => some q'
    | (false, q') => ffq_enqueue_loop fuel q' item (local_tail + 1)

/-- The function `ffq_enqueue` caches `local_tail = queue->tail` and runs the retry loop.
Only the producer ever writes `tail` and it writes the incremented value back
each iteration, so the cached value equals the region's `tail` at every
iteration boundary. -/
def ffq_enqueue (fuel : Nat) (q : FFQueue P) (item : P) : Option (FFQueue P) :=
  ffq_enqueue_loop fuel q item q.tail

/-- The `while (!success)` loop of `ffq_dequeue` with explicit fuel.  Each
iteration reads `rank`, `gap`, `data` of the cell and `lastItemDequeued`
under a shared lock, then branches exactly as the C code:
take (`cell_rank == fetch_rank`), gap skip
(`cell_gap >= fetch_rank && cell_rank != fetch_rank`, one more fetch-and-add
of +1 on `head`), or wait (`do_work(10)`, i.e. a 10000 microsecond sleep,
which is logged).  On take, the returned tuple carries the `success` flag
(literally assigned `true` in that branch), the region after the
`rank = EMPTY_CELL` and `lastItemDequeued = lastItem + 1` writes, the rank
delivered, and the payload read from the cell.  The second component of the
result is the sleep log in microseconds. -/
def ffq_dequeue_loop :
    Nat → FFQueue P → Int → Int → Int → List Int →
    Option (Bool × FFQueue P × Int × P) × List Int
  | 0, _, _, _, _, sleeps => (none, sleeps)
  | fuel + 1, q, fetch_rank, idx, local_size, sleeps =>
    let c := q.cells idx
    if c.rank = fetch_rank then
      (some (true,
             { setCell q idx { c with rank := EMPTY_CELL } with
               lastItemDequeued := q.lastItemDequeued + 1 },
             fetch_rank, c.data), sleeps)
    else if c.gap ≥ fetch_rank ∧ c.rank ≠ fetch_rank then
      ffq_dequeue_loop fuel { q with head := q.head + 1 } q.head
        (q.head.tmod local_size) local_size sleeps
    else
      ffq_dequeue_loop fuel q fetch_rank idx local_size (sleeps ++ [10000])

/-- The function `ffq_dequeue`: one atomic fetch-and-add of +1 on `head` claims
`fetch_rank` (the value read before the add), `size` is read into
`local_size`, the slot index `fetch_rank % local_size` is computed, and the
retry loop runs. -/
def ffq_dequeue (fuel : Nat) (q : FFQueue P) :
    Option (Bool × FFQueue P × Int × P) × List Int :=
  let fetch_rank := q.head
  let q1 : FFQueue P := { q with head := q.head + 1 }
  let local_size := q1.size
  ffq_dequeue_loop fuel q1 fetch_rank (fetch_rank.tmod local_size) local_size []

/-- The constant `MAX_BACKOFF` of the optimized implementation: 10 ms in microseconds. -/
def MAX_BACKOFF : Int := 10000

/-- The constant `MAX_RETRIES`, the advisory retry cap of `ffq_dequeue_optimized`. -/
def MAX_RETRIES : Nat := 1000

/-- The backoff update
`backoff_us = (backoff_us * 2 > MAX_BACKOFF) ? MAX_BACKOFF : backoff_us * 2`. -/
def next_backoff (b : Int) : Int :=
  if b * 2 > MAX_BACKOFF then MAX_BACKOFF else b * 2

/-- Result of `ffq_dequeue_optimized`: the C return value `success`, the
final region, the rank last claimed, the delivered payload if any, the number
of loop iterations performed (`retry_count`), and the microsecond sleep log. -/
structure OptDeqResult (P : Type) where
  success : Bool
  queue : FFQueue P
  rank : Int
  item : Option P
  retries : Nat
  sleeps : List Int

/-- The `while (!success && retry_count < MAX_RETRIES)` loop of
`ffq_dequeue_optimized`.  `remaining` is `MAX_RETRIES - retry_count` and
`done` is the number of iterations already performed, so `remaining = 0`
means the advisory retry cap has fired and the function returns `false`.
The branches mirror `ffq_dequeue_loop`; in addition the gap-skip branch
resets the backoff to 100 microseconds and the wait branch sleeps the current
backoff and doubles it up to `MAX_BACKOFF`. -/
def ffq_dequeue_optimized_loop :
    Nat → Nat → FFQueue P → Int → Int → Int → Int → List Int → OptDeqResult P
  | 0, done, q, fetch_rank, _, _, _, sleeps =>
      { success := false, queue := q, rank := fetch_rank, item := none,
        retries := done, sleeps := sleeps }
  | remaining + 1, done, q, fetch_rank, idx, local_size, backoff, sleeps =>
    let c := q.cells idx
    if c.rank = fetch_rank then
      { success := true,
        queue := { setCell q idx { c with rank := EMPTY_CELL } with
                   lastItemDequeued := q.lastItemDequeued + 1 },
        rank := fetch_rank, item := some c.data, retries := done + 1,
        sleeps := sleeps }
    else if c.gap ≥ fetch_rank ∧ c.rank ≠ fetch_rank then
      ffq_dequeue_optimized_loop remaining (done + 1)
        { q with head := q.head + 1 } q.head (q.head.tmod local_size)
        local_size 100 sleeps
    else
      ffq_dequeue_optimized_loop remaining (done + 1) q fetch_rank idx
        local_size (next_backoff backoff) (sleeps ++ [backoff])

/-- The function `ffq_dequeue_optimized`: fetch-and-add of +1 on `head`, slot index from
the cached `local_size` (equal to the immutable `size`), then the capped
retry loop starting from `backoff_us = 100`. -/
def ffq_dequeue_optimized (q : FFQueue P) : OptDeqResult P :=
  let fetch_rank := q.head
  let q1 : FFQueue P := { q with head := q.head + 1 }
  ffq_dequeue_optimized_loop MAX_RETRIES 0 q1 fetch_rank
    (fetch_rank.tmod q.size) q.size 100 []

/-- Outcome of the validation step at the end of `parse_args` in
`src/spmc/src/common.c`: `MPI_Abort(MPI_COMM_WORLD, 1)` if the queue size is
below 2, otherwise `MPI_Abort(MPI_COMM_WORLD, 1)` if the item count is below
1, otherwise the configuration is accepted. -/
inductive ArgCheck
  | ok
  | abortQueueSize
  | abortNumItems
deriving DecidableEq

/-- The validation step of `parse_args` (`common.c`, end of the function). -/
def validate_args (queue_size num_items : Int) : ArgCheck :=
  if queue_size < 2 then ArgCheck.abortQueueSize
  else if num_items < 1 then ArgCheck.abortNumItems
  else ArgCheck.ok

/-- One atomic shared-memory action of the FFQ protocol, i.e. one lock epoch
of `ffq.c`: a producer enqueue-loop iteration (the single producer's cached
`local_tail` equals the region's `tail` because nobody else writes `tail`
and the producer writes the incremented value back every iteration), the
head fetch-and-add claiming a rank at the top of `ffq_dequeue`, the head
fetch-and-add of the gap-skip branch, and the write epoch of the take branch
(`rank = EMPTY_CELL` and `lastItemDequeued = lastItem + 1`, where `lastItem`
was read in an earlier epoch and may be stale, hence an arbitrary value). -/
inductive Step (P : Type) : FFQueue P → FFQueue P → Prop
  | prodIter (q : FFQueue P) (item : P) :
      Step P q (ffq_enqueue_iter q item q.tail).2
  | consClaimHead (q : FFQueue P) :
      Step P q { q with head := q.head + 1 }
  | consSkipHead (q : FFQueue P) :
      Step P q { q with head := q.head + 1 }
  | consTake (q : FFQueue P) (idx lastItem : Int) :
      Step P q { setCell q idx { q.cells idx with rank := EMPTY_CELL } with
                 lastItemDequeued := lastItem + 1 }

/-- A region state is reachable from another by any interleaving of the
protocol's atomic actions. -/
def Reaches (q q' : FFQueue P) : Prop :=
  Relation.ReflTransGen (Step P) q q'

theorem setCell_cells (q : FFQueue P) (i : Int) (c : Cell P) (j : Int) :
    (setCell q i c).cells j = if j = i then c else q.cells j := rfl

theorem setCell_cells_self (q : FFQueue P) (i : Int) (c : Cell P) :
    (setCell q i c).cells i = c := by
  simp [setCell]

theorem setCell_cells_of_ne (q : FFQueue P) (i j : Int) (c : Cell P)
    (h : j ≠ i) : (setCell q i c).cells j = q.cells j := by
  simp [setCell, h]

/-- Claim C1: from a freshly initialized queue, one `ffq_enqueue p` followed
by one `ffq_dequeue` with nothing else interleaved returns `true` and yields
the payload `p` unchanged (byte-for-byte, since the whole record is copied).
The enqueue succeeds on its first loop iteration and the dequeue on its
first loop iteration with no sleeps, delivering rank 0. -/
theorem claim_C1 (P : Type) (z p : P) (N : Int) (hN : 0 < N) :
    ∃ q1 q2 : FFQueue P,
      ffq_enqueue 1 (ffq_init N z) p = some q1 ∧
      ffq_dequeue 1 q1 = (some (true, q2, 0, p), []) := by
  have hz : (0 : Int).tmod N = 0 := Int.zero_tmod N
  refine ⟨{ size := N, head := 0, tail := 1, lastItemDequeued := 0,
            cells := fun j =>
              if j = 0 then ⟨0, EMPTY_CELL, p⟩
              else ⟨EMPTY_CELL, EMPTY_CELL, z⟩ },
          { size := N, head := 1, tail := 1, lastItemDequeued := 1,
            cells := fun j =>
              if j = 0 then ⟨EMPTY_CELL, EMPTY_CELL, p⟩
              else if j = 0 then ⟨0, EMPTY_CELL, p⟩
              else ⟨EMPTY_CELL, EMPTY_CELL, z⟩ },
          ?_, ?_⟩
  · simp [ffq_enqueue, ffq_enqueue_loop, ffq_enqueue_iter, ffq_init, setCell,
      hz, EMPTY_CELL]
  · simp [ffq_dequeue, ffq_dequeue_loop, setCell, hz, EMPTY_CELL]

/-- Witness for C1 at `P = Nat`, `z = 0`, `p = 7`, `N = 4`. -/
theorem claim_C1_witness :
    (0 : Int) < 4 ∧
    ∃ q1 q2 : FFQueue Nat,
      ffq_enqueue 1 (ffq_init 4 0) 7 = some q1 ∧
      ffq_dequeue 1 q1 = (some (true, q2, 0, 7), []) :=
  ⟨by norm_num, claim_C1 Nat 0 7 4 (by norm_num)⟩

/-- The gap-skip branch of the `ffq_dequeue` retry loop: when the cell shows
`gap ≥ fetch_rank` and `rank ≠ fetch_rank`, the iteration performs the head
fetch-and-add and continues the loop at the freshly claimed rank. -/
theorem deq_loop_skip (fuel : Nat) (q : FFQueue P) (fr idx ls : Int)
    (sl : List Int) (hgap : (q.cells idx).gap ≥ fr)
    (hrank : (q.cells idx).rank ≠ fr) :
    ffq_dequeue_loop (fuel + 1) q fr idx ls sl =
      ffq_dequeue_loop fuel { q with head := q.head + 1 } q.head
        (q.head.tmod ls) ls sl := by
  simp only [ffq_dequeue_loop]
  rw [if_neg hrank, if_pos ⟨hgap, hrank⟩]

/-- Any success of the `ffq_dequeue` retry loop delivers either the rank it
currently holds or a rank at least the current `head` (ranks claimed later
come from head fetch-and-adds). -/
theorem deq_loop_rank_ge (fuel : Nat) :
    ∀ (q : FFQueue P) (fr idx ls : Int) (sl sl' : List Int) (b : Bool)
      (q' : FFQueue P) (r : Int) (p : P),
      ffq_dequeue_loop fuel q fr idx ls sl = (some (b, q', r, p), sl') →
      r = fr ∨ q.head ≤ r := by
  induction fuel with
  | zero =>
    intro q fr idx ls sl sl' b q' r p h
    simp [ffq_dequeue_loop] at h
  | succ n ih =>
    intro q fr idx ls sl sl' b q' r p h
    simp only [ffq_dequeue_loop] at h
    by_cases h1 : (q.cells idx).rank = fr
    · rw [if_pos h1] at h
      simp only [Prod.mk.injEq, Option.some.injEq] at h
      exact Or.inl h.1.2.2.1.symm
    · rw [if_neg h1] at h
      by_cases h2 : (q.cells idx).gap ≥ fr ∧ (q.cells idx).rank ≠ fr
      · rw [if_pos h2] at h
        rcases ih _ _ _ _ _ _ _ _ _ _ h with h3 | h3
        · right; omega
        · right
          have h4 : q.head + 1 ≤ r := h3
          omega
      · rw [if_neg h2] at h
        exact ih _ _ _ _ _ _ _ _ _ _ h

/-- Claim C2: in the gap-skip case (`gap ≥ r` and `rank ≠ r` at slot
`i = r mod N`), the dequeue loop performs exactly one additional atomic
fetch-and-add of +1 on `head`, takes the value read before the add as the
new claimed rank, recomputes the slot index modulo the size, and re-evaluates
the loop; and the call never returns a payload for the skipped rank `r`
(the hypothesis `r + 1 ≤ head` holds at every real call site because the
claim of `r` itself incremented `head` past `r` and `head` never decreases). -/
theorem claim_C2 (fuel : Nat) (q : FFQueue P) (fr ls : Int) (sl : List Int)
    (hgap : (q.cells (fr.tmod ls)).gap ≥ fr)
    (hrank : (q.cells (fr.tmod ls)).rank ≠ fr)
    (hhead : fr + 1 ≤ q.head) :
    ffq_dequeue_loop (fuel + 1) q fr (fr.tmod ls) ls sl =
      ffq_dequeue_loop fuel { q with head := q.head + 1 } q.head
        (q.head.tmod ls) ls sl ∧
    ∀ (b : Bool) (q' : FFQueue P) (r : Int) (p : P) (sl' : List Int),
      ffq_dequeue_loop (fuel + 1) q fr (fr.tmod ls) ls sl =
        (some (b, q', r, p), sl') →
      r ≠ fr := by
  have heq := deq_loop_skip fuel q fr (fr.tmod ls) ls sl hgap hrank
  refine ⟨heq, ?_⟩
  intro b q' r p sl' h
  rw [heq] at h
  rcases deq_loop_rank_ge fuel _ _ _ _ _ _ _ _ _ _ h with h3 | h3
  · omega
  · have h4 : q.head + 1 ≤ r := h3
    omega

/-- A queue fixture whose slot 0 carries a gap watermark of 5 and no
published rank: slot 0 was skipped for ranks up to 5. -/
def gapFixture : FFQueue Nat :=
  { size := 2, head := 3, tail := 3, lastItemDequeued := 0,
    cells := fun j =>
      if j = 0 then ⟨EMPTY_CELL, 5, 0⟩ else ⟨EMPTY_CELL, EMPTY_CELL, 0⟩ }

/-- Witness for C2 at the concrete fixture, claimed rank 2, slot 0. -/
theorem claim_C2_witness :
    ((gapFixture.cells ((2 : Int).tmod 2)).gap ≥ 2 ∧
     (gapFixture.cells ((2 : Int).tmod 2)).rank ≠ 2 ∧
     (2 : Int) + 1 ≤ gapFixture.head) ∧
    ffq_dequeue_loop 1 gapFixture 2 ((2 : Int).tmod 2) 2 [] =
      ffq_dequeue_loop 0 { gapFixture with head := gapFixture.head + 1 }
        gapFixture.head (gapFixture.head.tmod 2) 2 [] :=
  ⟨⟨by decide, by decide, by decide⟩,
   (claim_C2 0 gapFixture 2 2 [] (by decide) (by decide) (by decide)).1⟩

/-- Claim C10: the gap-skip branch's only mutation of the shared region is
the +1 fetch-and-add on `head`: the loop continues in a state with the same
cells (no `rank`, `gap` or payload write), the same `tail`, `size` and
`lastItemDequeued`, and `head` exactly one larger; the sleep log is also
untouched. -/
theorem claim_C10 (fuel : Nat) (q : FFQueue P) (fr ls : Int) (sl : List Int)
    (hgap : (q.cells (fr.tmod ls)).gap ≥ fr)
    (hrank : (q.cells (fr.tmod ls)).rank ≠ fr) :
    ∃ q2 : FFQueue P,
      ffq_dequeue_loop (fuel + 1) q fr (fr.tmod ls) ls sl =
        ffq_dequeue_loop fuel q2 q.head (q.head.tmod ls) ls sl ∧
      q2.head = q.head + 1 ∧ q2.cells = q.cells ∧ q2.tail = q.tail ∧
      q2.size = q.size ∧ q2.lastItemDequeued = q.lastItemDequeued :=
  ⟨{ q with head := q.head + 1 },
   deq_loop_skip fuel q fr (fr.tmod ls) ls sl hgap hrank,
   rfl, rfl, rfl, rfl, rfl⟩

/-- Witness for C10 at the concrete gap fixture, claimed rank 2, slot 0. -/
theorem claim_C10_witness :
    ((gapFixture.cells ((2 : Int).tmod 2)).gap ≥ 2 ∧
     (gapFixture.cells ((2 : Int).tmod 2)).rank ≠ 2) ∧
    ∃ q2 : FFQueue Nat,
      ffq_dequeue_loop 3 gapFixture 2 ((2 : Int).tmod 2) 2 [] =
        ffq_dequeue_loop 2 q2 gapFixture.head (gapFixture.head.tmod 2) 2 [] ∧
      q2.head = gapFixture.head + 1 ∧ q2.cells = gapFixture.cells ∧
      q2.tail = gapFixture.tail ∧ q2.size = gapFixture.size ∧
      q2.lastItemDequeued = gapFixture.lastItemDequeued :=
  ⟨⟨by decide, by decide⟩,
   claim_C10 2 gapFixture 2 2 [] (by decide) (by decide)⟩

/-- The free branch of an enqueue iteration: a negative stored rank means the
payload is written and the rank published. -/
theorem enqueue_iter_free (q : FFQueue P) (item : P) (lt : Int)
    (h : (q.cells (lt.tmod q.size)).rank < 0) :
    ffq_enqueue_iter q item lt =
      (true,
       { setCell q (lt.tmod q.size)
           { q.cells (lt.tmod q.size) with data := item, rank := lt } with
         tail := lt + 1 }) := by
  simp only [ffq_enqueue_iter]
  rw [if_pos h]

/-- The occupied branch of an enqueue iteration: a non-negative stored rank
means `gap = local_tail` is written and the iteration fails. -/
theorem enqueue_iter_occupied (q : FFQueue P) (item : P) (lt : Int)
    (h : 0 ≤ (q.cells (lt.tmod q.size)).rank) :
    ffq_enqueue_iter q item lt =
      (false,
       { setCell q (lt.tmod q.size)
           { q.cells (lt.tmod q.size) with gap := lt } with
         tail := lt + 1 }) := by
  simp only [ffq_enqueue_iter]
  rw [if_neg (not_lt.mpr h)]

/-- An enqueue iteration never changes `head`. -/
theorem enqueue_iter_head (q : FFQueue P) (item : P) (lt : Int) :
    ((ffq_enqueue_iter q item lt).2).head = q.head := by
  simp only [ffq_enqueue_iter, setCell]
  split <;> rfl

/-- An enqueue iteration never changes `size`. -/
theorem enqueue_iter_size (q : FFQueue P) (item : P) (lt : Int) :
    ((ffq_enqueue_iter q item lt).2).size = q.size := by
  simp only [ffq_enqueue_iter, setCell]
  split <;> rfl

/-- An enqueue iteration sets `tail` to `local_tail + 1`. -/
theorem enqueue_iter_tail (q : FFQueue P) (item : P) (lt : Int) :
    ((ffq_enqueue_iter q item lt).2).tail = lt + 1 := by
  simp only [ffq_enqueue_iter, setCell]
  split <;> rfl

/-- The producer-side invariant driving gap monotonicity: `tail` is
nonnegative and strictly above every stored gap watermark. -/
def GapTailInv (q : FFQueue P) : Prop :=
  0 ≤ q.tail ∧ ∀ i : Int, (q.cells i).gap < q.tail

/-- A freshly initialized region satisfies the gap/tail invariant. -/
theorem init_gapTailInv (N : Int) (z : P) : GapTailInv (ffq_init N z) :=
  ⟨le_refl 0, fun _ => by simp [ffq_init, EMPTY_CELL]⟩

/-- Every atomic action preserves the gap/tail invariant. -/
theorem step_gapTailInv {q q' : FFQueue P} (hs : Step P q q')
    (h : GapTailInv q) : GapTailInv q' := by
  obtain ⟨h0, hg⟩ := h
  cases hs with
  | prodIter item =>
    rcases lt_or_le (q.cells (q.tail.tmod q.size)).rank 0 with hc | hc
    · rw [enqueue_iter_free q item q.tail hc]
      dsimp only [GapTailInv, setCell]
      refine ⟨by omega, fun i => ?_⟩
      by_cases hi : i = q.tail.tmod q.size
      · rw [if_pos hi]
        have := hg (q.tail.tmod q.size)
        dsimp only
        omega
      · rw [if_neg hi]
        have := hg i
        omega
    · rw [enqueue_iter_occupied q item q.tail hc]
      dsimp only [GapTailInv, setCell]
      refine ⟨by omega, fun i => ?_⟩
      by_cases hi : i = q.tail.tmod q.size
      · rw [if_pos hi]
        dsimp only
        omega
      · rw [if_neg hi]
        have := hg i
        omega
  | consClaimHead => exact ⟨h0, hg⟩
  | consSkipHead => exact ⟨h0, hg⟩
  | consTake idx lastItem =>
    dsimp only [GapTailInv, setCell]
    refine ⟨h0, fun i => ?_⟩
    by_cases hi : i = idx
    · rw [if_pos hi]
      subst hi
      exact hg i
    · rw [if_neg hi]
      exact hg i

/-- Under the invariant, no atomic action ever decreases a cell's gap. -/
theorem step_gap_mono {q q' : FFQueue P} (hs : Step P q q')
    (h : GapTailInv q) (i : Int) : (q.cells i).gap ≤ (q'.cells i).gap := by
  obtain ⟨h0, hg⟩ := h
  cases hs with
  | prodIter item =>
    rcases lt_or_le (q.cells (q.tail.tmod q.size)).rank 0 with hc | hc
    · rw [enqueue_iter_free q item q.tail hc]
      dsimp only [setCell]
      by_cases hi : i = q.tail.tmod q.size
      · rw [if_pos hi]
        subst hi
        exact le_refl _
      · rw [if_neg hi]
    · rw [enqueue_iter_occupied q item q.tail hc]
      dsimp only [setCell]
      by_cases hi : i = q.tail.tmod q.size
      · rw [if_pos hi]
        subst hi
        exact le_of_lt (hg _)
      · rw [if_neg hi]
  | consClaimHead => exact le_refl _
  | consSkipHead => exact le_refl _
  | consTake idx lastItem =>
    dsimp only [setCell]
    by_cases hi : i = idx
    · rw [if_pos hi]
      subst hi
      exact le_refl _
    · rw [if_neg hi]

/-- The invariant holds in every reachable state. -/
theorem reach_gapTailInv {q q' : FFQueue P} (hr : Reaches q q')
    (h : GapTailInv q) : GapTailInv q' := by
  induction hr with
  | refl => exact h
  | tail _ hs ih => exact step_gapTailInv hs ih

/-- Gap monotonicity along any execution from an invariant state. -/
theorem reach_gap_mono {q q' : FFQueue P} (hr : Reaches q q')
    (h : GapTailInv q) (i : Int) : (q.cells i).gap ≤ (q'.cells i).gap := by
  induction hr with
  | refl => exact le_refl _
  | tail hpre hs ih =>
    exact le_trans ih (step_gap_mono hs (reach_gapTailInv hpre h) i)

/-- Claim C4: along any execution from initialization, `cells[i].gap` never
decreases; once it is nonnegative it stays nonnegative; and each gap write
stores the producer's current tail value. -/
theorem claim_C4 (P : Type) (N : Int) (z : P) (q q' : FFQueue P) (i : Int)
    (hq : Reaches (ffq_init N z) q) (hq' : Reaches q q') :
    (q.cells i).gap ≤ (q'.cells i).gap ∧
    (0 ≤ (q.cells i).gap → 0 ≤ (q'.cells i).gap) ∧
    ∀ item : P, 0 ≤ (q.cells (q.tail.tmod q.size)).rank →
      (((ffq_enqueue_iter q item q.tail).2).cells (q.tail.tmod q.size)).gap =
        q.tail := by
  have hinv := reach_gapTailInv hq (init_gapTailInv N z)
  have hm := reach_gap_mono hq' hinv i
  refine ⟨hm, fun h0 => le_trans h0 hm, ?_⟩
  intro item hocc
  rw [enqueue_iter_occupied q item q.tail hocc]
  dsimp only [setCell]
  rw [if_pos rfl]

/-- Witness for C4: a fresh 2-slot region, one producer iteration. -/
theorem claim_C4_witness :
    ((ffq_init (P := Nat) 2 0).cells 0).gap ≤
      (((ffq_enqueue_iter (ffq_init (P := Nat) 2 0) 7
          (ffq_init (P := Nat) 2 0).tail).2).cells 0).gap :=
  (claim_C4 Nat 2 0 _ _ 0 Relation.ReflTransGen.refl
    (Relation.ReflTransGen.single (Step.prodIter _ 7))).1

/-- Claim C5: every atomic action either leaves `head` unchanged or adds
exactly 1 to it (the two fetch-and-add sites), so `head` is monotonically
non-decreasing along any interleaving of enqueues and dequeues. -/
theorem claim_C5 (P : Type) :
    (∀ q q' : FFQueue P, Step P q q' →
      (q'.head = q.head ∨ q'.head = q.head + 1) ∧ q.head ≤ q'.head) ∧
    (∀ q q' : FFQueue P, Reaches q q' → q.head ≤ q'.head) := by
  have hstep : ∀ q q' : FFQueue P, Step P q q' →
      (q'.head = q.head ∨ q'.head = q.head + 1) ∧ q.head ≤ q'.head := by
    intro q q' hs
    cases hs with
    | prodIter item =>
      have h := enqueue_iter_head q item q.tail
      exact ⟨Or.inl h, le_of_eq h.symm⟩
    | consClaimHead =>
      refine ⟨Or.inr rfl, ?_⟩
      show q.head ≤ q.head + 1
      omega
    | consSkipHead =>
      refine ⟨Or.inr rfl, ?_⟩
      show q.head ≤ q.head + 1
      omega
    | consTake idx lastItem => exact ⟨Or.inl rfl, le_refl _⟩
  refine ⟨hstep, ?_⟩
  intro q q' hr
  induction hr with
  | refl => exact le_refl _
  | tail _ hs ih => exact le_trans ih (hstep _ _ hs).2

/-- Witness for C5: the head fetch-and-add at the top of a dequeue on a
fresh region. -/
theorem claim_C5_witness :
    (ffq_init (P := Nat) 2 0).head ≤
      ({ ffq_init (P := Nat) 2 0 with
         head := (ffq_init (P := Nat) 2 0).head + 1 }).head :=
  ((claim_C5 Nat).1 _ _ (Step.consClaimHead _)).2

/-- Claim C9: `ffq_enqueue` treats a slot as free exactly when the rank it
reads is negative (`cell_rank < 0`), not only when it equals the specific
`EMPTY_CELL` sentinel: for every negative stored rank the iteration publishes
the payload and rank into that slot and succeeds, and for every non-negative
stored rank it writes `gap = local_tail` and advances instead. -/
theorem claim_C9 (q : FFQueue P) (item : P) (lt : Int) :
    ((q.cells (lt.tmod q.size)).rank < 0 →
      ffq_enqueue_iter q item lt =
        (true,
         { setCell q (lt.tmod q.size)
             { q.cells (lt.tmod q.size) with data := item, rank := lt } with
           tail := lt + 1 })) ∧
    (0 ≤ (q.cells (lt.tmod q.size)).rank →
      ffq_enqueue_iter q item lt =
        (false,
         { setCell q (lt.tmod q.size)
             { q.cells (lt.tmod q.size) with gap := lt } with
           tail := lt + 1 })) :=
  ⟨enqueue_iter_free q item lt, enqueue_iter_occupied q item lt⟩

/-- A queue fixture whose slot 0 holds the negative rank -5 (distinct from
the `EMPTY_CELL` sentinel -1) and whose slot 1 holds the rank 2. -/
def rankFixture : FFQueue Nat :=
  { size := 2, head := 0, tail := 6, lastItemDequeued := 0,
    cells := fun j => if j = 0 then ⟨-5, 3, 11⟩ else ⟨2, EMPTY_CELL, 22⟩ }

/-- Witness for C9: at rank -5 (negative but not the -1 sentinel) the
iteration publishes; at the occupied slot of rank 2 it writes a gap. -/
theorem claim_C9_witness :
    ((rankFixture.cells ((6 : Int).tmod rankFixture.size)).rank < 0 ∧
     (rankFixture.cells ((6 : Int).tmod rankFixture.size)).rank ≠ EMPTY_CELL ∧
     (ffq_enqueue_iter rankFixture 99 6).1 = true) ∧
    (0 ≤ (rankFixture.cells ((7 : Int).tmod rankFixture.size)).rank ∧
     (ffq_enqueue_iter rankFixture 99 7).1 = false) :=
  ⟨⟨by decide, by decide,
    by rw [(claim_C9 rankFixture 99 6).1 (by decide)]⟩,
   ⟨by decide,
    by rw [(claim_C9 rankFixture 99 7).2 (by decide)]⟩⟩

/-- Truncating C `%` agrees with the mathematical remainder on the
nonnegative dividends and positive divisors that occur in runs, and then
stays below the divisor. -/
theorem tmod_small {a b : Int} (h0 : 0 ≤ a) (h : a < b) : a.tmod b = a := by
  rw [Int.tmod_eq_emod h0 (le_trans h0 (le_of_lt h))]
  exact Int.emod_eq_of_lt h0 h

/-- Bounds of `Int.tmod` for nonnegative dividend and positive divisor. -/
theorem tmod_bounds {a b : Int} (h0 : 0 ≤ a) (h : 0 < b) :
    0 ≤ a.tmod b ∧ a.tmod b < b := by
  rw [Int.tmod_eq_emod h0 (le_of_lt h)]
  exact ⟨Int.emod_nonneg a (ne_of_gt h), Int.emod_lt_of_pos a h⟩

/-- The region after `k` successful enqueues of `items 0, …, items (k-1)`
into a fresh `N`-slot queue with no consumer: slots `0 ≤ i < k` carry their
rank and payload, the rest are untouched, `tail = k`, `head = 0`. -/
def filled (N : Int) (z : P) (items : Int → P) (k : Nat) : FFQueue P :=
  { size := N, head := 0, tail := (k : Int), lastItemDequeued := 0,
    cells := fun i =>
      if 0 ≤ i ∧ i < (k : Int) then ⟨i, EMPTY_CELL, items i⟩
      else ⟨EMPTY_CELL, EMPTY_CELL, z⟩ }

/-- A sequence of `k` consecutive `ffq_enqueue` calls (one loop iteration allowed each) on
a freshly initialized queue, with no consumer running. -/
def enqueueSeq (N : Int) (z : P) (items : Int → P) : Nat → Option (FFQueue P)
  | 0 => some (ffq_init N z)
  | k + 1 => (enqueueSeq N z items k).bind fun q => ffq_enqueue 1 q (items k)

/-- With no consumer, the first `k ≤ N` enqueues each succeed on their first
loop iteration and leave exactly the `filled` region. -/
theorem enqueueSeq_eq (N : Int) (z : P) (items : Int → P) :
    ∀ k : Nat, (k : Int) ≤ N →
      enqueueSeq N z items k = some (filled N z items k) := by
  intro k
  induction k with
  | zero =>
    intro _
    simp only [enqueueSeq]
    congr 1
    apply FFQueue.ext <;> try rfl
    funext i
    rw [filled]
    dsimp only
    rw [if_neg]
    · rfl
    · rintro ⟨h1, h2⟩
      omega
  | succ k ih =>
    intro hk
    have hkN : (k : Int) < N := by push_cast at hk ⊢; omega
    have hk' : (k : Int) ≤ N := le_of_lt hkN
    rw [enqueueSeq, ih hk', Option.some_bind]
    have hidx : ((k : Int)).tmod (filled N z items k).size = (k : Int) :=
      tmod_small (by positivity) hkN
    have hcell : (filled N z items k).cells (k : Int) =
        ⟨EMPTY_CELL, EMPTY_CELL, z⟩ := by
      rw [filled]
      dsimp only
      rw [if_neg]
      rintro ⟨h1, h2⟩
      omega
    have htail : (filled N z items k).tail = (k : Int) := rfl
    rw [ffq_enqueue, htail, ffq_enqueue_loop]
    rw [enqueue_iter_free _ (items k) (k : Int)
      (by rw [hidx, hcell]; norm_num [EMPTY_CELL])]
    dsimp only
    congr 1
    apply FFQueue.ext
    · rfl
    · rfl
    · show (k : Int) + 1 = ((k + 1 : Nat) : Int)
      push_cast
      ring
    · rfl
    · funext i
      rw [hidx, setCell_cells, hcell]
      by_cases hi : i = (k : Int)
      · rw [if_pos hi, filled]
        dsimp only
        rw [if_pos (by constructor <;> push_cast <;> omega)]
        rw [hi]
      · rw [if_neg hi, filled, filled]
        dsimp only
        by_cases hik : 0 ≤ i ∧ i < (k : Int)
        · rw [if_pos hik, if_pos (by push_cast; omega)]
        · rw [if_neg hik, if_neg (by push_cast at hik ⊢; omega)]

/-- If every slot of the ring holds a non-negative rank, the enqueue retry
loop keeps writing gaps and never succeeds, for any amount of fuel: no
consumer ever writes `EMPTY_CELL`, so no iteration ever observes a negative
rank. -/
theorem enqueue_loop_none (item : P) :
    ∀ (fuel : Nat) (q : FFQueue P) (lt : Int),
      0 < q.size → 0 ≤ lt →
      (∀ i : Int, 0 ≤ i → i < q.size → 0 ≤ (q.cells i).rank) →
      ffq_enqueue_loop fuel q item lt = none := by
  intro fuel
  induction fuel with
  | zero => intros; rfl
  | succ n ih =>
    intro q lt hs hlt hranks
    obtain ⟨hb0, hb1⟩ := tmod_bounds hlt hs
    have hocc := hranks _ hb0 hb1
    rw [ffq_enqueue_loop, enqueue_iter_occupied q item lt hocc]
    refine ih _ (lt + 1) hs (by omega) ?_
    intro i h1 h2
    rw [setCell_cells]
    by_cases hi : i = lt.tmod q.size
    · rw [if_pos hi]
      subst hi
      exact hocc
    · rw [if_neg hi]
      exact hranks i h1 h2

/-- Claim C3: from a fresh `N`-slot queue with no consumer, `N` consecutive
enqueues all succeed, publishing ranks `0, …, N-1` into the `N` slots; the
`(N+1)`-th enqueue call writes a gap on its very first iteration (its slot,
like every slot, holds a non-negative rank) and never returns, whatever
fuel its retry loop is given. -/
theorem claim_C3 (P : Type) (z : P) (items : Int → P) (itemN : P) (N : Nat)
    (hN : 0 < N) :
    ∃ sN : FFQueue P,
      enqueueSeq (N : Int) z items N = some sN ∧
      (∀ j : Int, 0 ≤ j → j < (N : Int) → (sN.cells j).rank = j) ∧
      (∀ fuel : Nat, ffq_enqueue fuel sN itemN = none) ∧
      (ffq_enqueue_iter sN itemN sN.tail).1 = false ∧
      (((ffq_enqueue_iter sN itemN sN.tail).2).cells
        (sN.tail.tmod sN.size)).gap = sN.tail := by
  have hN' : (0 : Int) < (N : Int) := by exact_mod_cast hN
  refine ⟨filled (N : Int) z items N, enqueueSeq_eq _ _ _ N le_rfl, ?_, ?_, ?_, ?_⟩
  · intro j h0 h1
    rw [filled]
    dsimp only
    rw [if_pos ⟨h0, h1⟩]
  · intro fuel
    refine enqueue_loop_none itemN fuel _ (N : Int) hN' (by positivity) ?_
    intro i h1 h2
    rw [filled]
    dsimp only
    rw [if_pos ⟨h1, h2⟩]
    exact h1
  · have hocc : 0 ≤ ((filled (N : Int) z items N).cells
        ((filled (N : Int) z items N).tail.tmod
          (filled (N : Int) z items N).size)).rank := by
      obtain ⟨hb0, hb1⟩ : 0 ≤ ((N : Int)).tmod (N : Int) ∧
          ((N : Int)).tmod (N : Int) < (N : Int) :=
        tmod_bounds (by positivity) hN'
      rw [filled]
      dsimp only
      rw [if_pos ⟨hb0, hb1⟩]
      exact hb0
    rw [enqueue_iter_occupied _ itemN _ hocc]
  · have hocc : 0 ≤ ((filled (N : Int) z items N).cells
        ((filled (N : Int) z items N).tail.tmod
          (filled (N : Int) z items N).size)).rank := by
      obtain ⟨hb0, hb1⟩ : 0 ≤ ((N : Int)).tmod (N : Int) ∧
          ((N : Int)).tmod (N : Int) < (N : Int) :=
        tmod_bounds (by positivity) hN'
      rw [filled]
      dsimp only
      rw [if_pos ⟨hb0, hb1⟩]
      exact hb0
    rw [enqueue_iter_occupied _ itemN _ hocc]
    dsimp only [setCell]
    rw [if_pos rfl]

/-- Witness for C3 at `P = Nat`, `N = 2`. -/
theorem claim_C3_witness :
    0 < 2 ∧
    ∃ sN : FFQueue Nat,
      enqueueSeq (2 : Int) 0 (fun i => i.toNat + 1) 2 = some sN ∧
      (∀ j : Int, 0 ≤ j → j < (2 : Int) → (sN.cells j).rank = j) ∧
      (∀ fuel : Nat, ffq_enqueue fuel sN 9 = none) ∧
      (ffq_enqueue_iter sN 9 sN.tail).1 = false ∧
      (((ffq_enqueue_iter sN 9 sN.tail).2).cells
        (sN.tail.tmod sN.size)).gap = sN.tail :=
  ⟨by norm_num, claim_C3 Nat 0 (fun i => i.toNat + 1) 9 2 (by norm_num)⟩

/-- The plain `ffq_dequeue` retry loop can only exit through the take
branch, which literally assigns `success = true`. -/
theorem deq_loop_success_true (fuel : Nat) :
    ∀ (q : FFQueue P) (fr idx ls : Int) (sl sl' : List Int)
      (res : Bool × FFQueue P × Int × P),
      ffq_dequeue_loop fuel q fr idx ls sl = (some res, sl') →
      res.1 = true := by
  induction fuel with
  | zero =>
    intro q fr idx ls sl sl' res h
    simp [ffq_dequeue_loop] at h
  | succ n ih =>
    intro q fr idx ls sl sl' res h
    simp only [ffq_dequeue_loop] at h
    by_cases h1 : (q.cells idx).rank = fr
    · rw [if_pos h1] at h
      simp only [Prod.mk.injEq, Option.some.injEq] at h
      rw [← h.1]
    · rw [if_neg h1] at h
      by_cases h2 : (q.cells idx).gap ≥ fr ∧ (q.cells idx).rank ≠ fr
      · rw [if_pos h2] at h
        exact ih _ _ _ _ _ _ _ h
      · rw [if_neg h2] at h
        exact ih _ _ _ _ _ _ _ h

/-- If the optimized retry loop comes back with `success = false`, it has
consumed its whole retry budget; and a `true` return carries a payload. -/
theorem opt_loop_exhausts (remaining : Nat) :
    ∀ (done : Nat) (q : FFQueue P) (fr idx ls b : Int) (sl : List Int),
      ((ffq_dequeue_optimized_loop remaining done q fr idx ls b sl).success =
          false →
        (ffq_dequeue_optimized_loop remaining done q fr idx ls b sl).retries =
          done + remaining) ∧
      ((ffq_dequeue_optimized_loop remaining done q fr idx ls b sl).success =
          true →
        ∃ p : P,
          (ffq_dequeue_optimized_loop remaining done q fr idx ls b sl).item =
            some p) := by
  induction remaining with
  | zero =>
    intro done q fr idx ls b sl
    rw [ffq_dequeue_optimized_loop]
    exact ⟨fun _ => rfl, fun h => by simp at h⟩
  | succ n ih =>
    intro done q fr idx ls b sl
    rw [ffq_dequeue_optimized_loop]
    by_cases h1 : (q.cells idx).rank = fr
    · rw [if_pos h1]
      exact ⟨fun h => by simp at h, fun _ => ⟨(q.cells idx).data, rfl⟩⟩
    · rw [if_neg h1]
      by_cases h2 : (q.cells idx).gap ≥ fr ∧ (q.cells idx).rank ≠ fr
      · rw [if_pos h2]
        refine ⟨fun h => ?_, (ih _ _ _ _ _ _ _).2⟩
        rw [(ih _ _ _ _ _ _ _).1 h]
        omega
      · rw [if_neg h2]
        refine ⟨fun h => ?_, (ih _ _ _ _ _ _ _).2⟩
        rw [(ih _ _ _ _ _ _ _).1 h]
        omega

/-- Claim C6: a dequeue returns `true` with the payload filled on success;
`false` is returned only when the advisory retry cap fires.  For
`ffq_dequeue_optimized`, a `false` return forces `retry_count = MAX_RETRIES`
and a `true` return carries a payload; the plain `ffq_dequeue` has no cap
and every return of its loop carries the flag `true`. -/
theorem claim_C6 (P : Type) (q : FFQueue P) :
    ((ffq_dequeue_optimized q).success = false →
      (ffq_dequeue_optimized q).retries = MAX_RETRIES) ∧
    ((ffq_dequeue_optimized q).success = true →
      ∃ p : P, (ffq_dequeue_optimized q).item = some p) ∧
    ∀ (fuel : Nat) (res : Bool × FFQueue P × Int × P) (sl : List Int),
      ffq_dequeue fuel q = (some res, sl) → res.1 = true := by
  refine ⟨fun h => ?_, fun h => ?_, fun fuel res sl h => ?_⟩
  · simp only [ffq_dequeue_optimized] at h ⊢
    rw [(opt_loop_exhausts _ _ _ _ _ _ _ _).1 h]
    omega
  · simp only [ffq_dequeue_optimized] at h ⊢
    exact (opt_loop_exhausts _ _ _ _ _ _ _ _).2 h
  · exact deq_loop_success_true fuel _ _ _ _ _ _ _ h

/-- A queue fixture with rank 0 published in slot 0, ready to dequeue. -/
def takeFixture : FFQueue Nat :=
  { size := 2, head := 0, tail := 1, lastItemDequeued := 0,
    cells := fun j =>
      if j = 0 then ⟨0, EMPTY_CELL, 42⟩ else ⟨EMPTY_CELL, EMPTY_CELL, 0⟩ }

/-- Witness for C6: on the ready fixture the optimized dequeue succeeds and
the payload is filled. -/
theorem claim_C6_witness :
    (ffq_dequeue_optimized takeFixture).success = true ∧
    ∃ p : Nat, (ffq_dequeue_optimized takeFixture).item = some p :=
  ⟨by decide, (claim_C6 Nat takeFixture).2.1 (by decide)⟩

/-- Counterexample to C7: `ffq_init` performs no validation of `N` at all.
Called directly with `N = 1 < 2` it returns a normally initialized region
(`size = 1`, zero counters, empty cells) on which an enqueue immediately
succeeds — so initialization with `N < 2` does not fail and does yield a
usable queue region. -/
theorem claim_C7_counterexample :
    (1 : Int) < 2 ∧
    (ffq_init (P := Nat) 1 0).size = 1 ∧
    (ffq_init (P := Nat) 1 0).head = 0 ∧
    (ffq_init (P := Nat) 1 0).tail = 0 ∧
    ((ffq_init (P := Nat) 1 0).cells 0).rank = EMPTY_CELL ∧
    (ffq_enqueue 1 (ffq_init (P := Nat) 1 0) 7).isSome = true := by
  decide

/-- Claim C7 as amended: the `N ≥ 2` requirement is enforced not by
`ffq_init` but by the CLI argument validation in `parse_args`, which aborts
the program (exit code 1) whenever `queue_size < 2`, so the queue is never
constructed with `N < 2` through the CLI; `ffq_init` itself validates
nothing and returns an initialized region for every `N`. -/
theorem claim_C7 (queue_size num_items : Int) (h : queue_size < 2) :
    validate_args queue_size num_items = ArgCheck.abortQueueSize ∧
    ∀ (P : Type) (z : P) (N : Int),
      (ffq_init N z).size = N ∧ (ffq_init N z).head = 0 ∧
      (ffq_init N z).tail = 0 ∧ (ffq_init N z).lastItemDequeued = 0 ∧
      ∀ i : Int, (ffq_init N z).cells i = ⟨EMPTY_CELL, EMPTY_CELL, z⟩ := by
  constructor
  · rw [validate_args, if_pos h]
  · intro P z N
    exact ⟨rfl, rfl, rfl, rfl, fun _ => rfl⟩

/-- Witness for the amended C7 at `queue_size = 1`. -/
theorem claim_C7_witness :
    (1 : Int) < 2 ∧ validate_args 1 5 = ArgCheck.abortQueueSize :=
  ⟨by norm_num, (claim_C7 1 5 (by norm_num)).1⟩

/-- Counterexample to C8: the plain `ffq_dequeue` (the variant called by the
gateway) does not start its retry sleep at ~100 microseconds: its very first
wait-branch sleep on an empty queue is `do_work(10)`, i.e. 10000
microseconds, and it neither doubles nor resets. -/
theorem claim_C8_counterexample :
    (ffq_dequeue (P := Nat) 1 (ffq_init 2 0)).2 = [10000] ∧
    (10000 : Int) ≠ 100 := by
  decide

/-- The doubling-with-cap law of the optimized backoff update. -/
theorem next_backoff_min (t : Int) (ht : 0 ≤ t) :
    next_backoff (min t MAX_BACKOFF) = min (t * 2) MAX_BACKOFF := by
  unfold next_backoff MAX_BACKOFF
  rcases le_total t 10000 with h | h
  · rw [min_eq_left h]
    split_ifs with h2
    · rw [min_eq_right (by omega)]
    · rw [min_eq_left (by omega)]
  · rw [min_eq_right h]
    split_ifs with h2
    · rw [min_eq_right (by omega)]
    · exact (h2 (by omega)).elim

/-- The backoff value after `j` consecutive wait retries of the optimized
dequeue: 100 microseconds doubled `j` times, capped at `MAX_BACKOFF`. -/
def backoffAt (j : Nat) : Int := min (100 * 2 ^ j) MAX_BACKOFF

theorem next_backoffAt (j : Nat) : next_backoff (backoffAt j) = backoffAt (j + 1) := by
  unfold backoffAt
  rw [next_backoff_min (100 * 2 ^ j) (by positivity)]
  congr 1
  rw [pow_succ]
  ring

/-- On a cell that stays unpublished and unskipped, the optimized retry loop
burns its whole budget sleeping the exponentially growing, capped backoff
sequence. -/
theorem opt_loop_wait_run (q : FFQueue P) (fr idx ls : Int)
    (hrank : (q.cells idx).rank ≠ fr) (hgap : (q.cells idx).gap < fr) :
    ∀ (n done j : Nat) (sl : List Int),
      ffq_dequeue_optimized_loop n done q fr idx ls (backoffAt j) sl =
        { success := false, queue := q, rank := fr, item := none,
          retries := done + n,
          sleeps := sl ++ (List.range n).map (fun t => backoffAt (j + t)) } := by
  intro n
  induction n with
  | zero =>
    intro done j sl
    rw [ffq_dequeue_optimized_loop]
    simp
  | succ n ih =>
    intro done j sl
    rw [ffq_dequeue_optimized_loop]
    rw [if_neg hrank, if_neg (fun hc => absurd hc.1 (not_le.mpr hgap))]
    rw [next_backoffAt j, ih (done + 1) (j + 1) (sl ++ [backoffAt j])]
    have hfun : ((fun t => backoffAt (j + t)) ∘ Nat.succ) =
        fun t => backoffAt (j + 1 + t) := by
      funext t
      simp only [Function.comp]
      congr 1
      omega
    congr 1
    · omega
    · rw [List.append_assoc, List.range_succ_eq_map, List.map_cons,
        List.map_map, hfun, List.singleton_append]
      simp

/-- Claim C8 as amended: the 100 µs → 10 ms exponential backoff belongs to
`ffq_dequeue_optimized`, not to the plain `ffq_dequeue`.  (i) waiting on an
unpublished cell, the optimized dequeue's `t`-th retry sleep is
`min(100·2^t, MAX_BACKOFF)` — it starts at 100 µs, doubles each retry and is
capped at 10 ms; (ii) the update law is doubling with cap; (iii) the
gap-skip branch (observed progress) resets the backoff to the initial
100 µs; (iv) the plain `ffq_dequeue` instead sleeps a constant 10 ms
(`do_work(10)`) before every retry. -/
theorem claim_C8 (P : Type) (N : Int) (z : P) (hN : 0 < N) :
    ((ffq_dequeue_optimized (ffq_init N z)).success = false ∧
     (ffq_dequeue_optimized (ffq_init N z)).sleeps =
       (List.range MAX_RETRIES).map fun t => min (100 * 2 ^ t) MAX_BACKOFF) ∧
    (∀ t : Int, 0 ≤ t →
      next_backoff (min t MAX_BACKOFF) = min (t * 2) MAX_BACKOFF) ∧
    (∀ (n done : Nat) (q : FFQueue P) (fr idx ls b : Int) (sl : List Int),
      (q.cells idx).rank ≠ fr → (q.cells idx).gap ≥ fr →
      ffq_dequeue_optimized_loop (n + 1) done q fr idx ls b sl =
        ffq_dequeue_optimized_loop n (done + 1) { q with head := q.head + 1 }
          q.head (q.head.tmod ls) ls 100 sl) ∧
    (∀ (fuel : Nat) (q : FFQueue P) (fr idx ls : Int) (sl : List Int),
      (q.cells idx).rank ≠ fr → (q.cells idx).gap < fr →
      ffq_dequeue_loop (fuel + 1) q fr idx ls sl =
        ffq_dequeue_loop fuel q fr idx ls (sl ++ [10000])) := by
  refine ⟨?_, next_backoff_min, ?_, ?_⟩
  · have h100 : (100 : Int) = backoffAt 0 := by
      norm_num [backoffAt, MAX_BACKOFF]
    simp only [ffq_dequeue_optimized, ffq_init]
    rw [Int.zero_tmod, h100]
    rw [opt_loop_wait_run _ 0 0 N (by simp [EMPTY_CELL])
      (by simp [EMPTY_CELL]) MAX_RETRIES 0 0 []]
    refine ⟨rfl, ?_⟩
    simp only [backoffAt, List.nil_append, Nat.zero_add]
    apply List.map_congr_left
    intro a _
    norm_num [MAX_BACKOFF]
  · intro n done q fr idx ls b sl hrank hgap
    rw [ffq_dequeue_optimized_loop]
    rw [if_neg hrank, if_pos ⟨hgap, hrank⟩]
  · intro fuel q fr idx ls sl hrank hgap
    rw [ffq_dequeue_loop]
    rw [if_neg hrank, if_neg (fun hc => absurd hc.1 (not_le.mpr hgap))]

/-- Witness for the amended C8: the full capped-exponential sleep schedule
of the optimized dequeue on a fresh 2-slot queue with no producer. -/
theorem claim_C8_witness :
    (0 : Int) < 2 ∧
    (ffq_dequeue_optimized (ffq_init (P := Nat) 2 0)).success = false ∧
    (ffq_dequeue_optimized (ffq_init (P := Nat) 2 0)).sleeps =
      (List.range MAX_RETRIES).map fun t => min (100 * 2 ^ t) MAX_BACKOFF :=
  ⟨by norm_num, (claim_C8 Nat 2 0 (by norm_num)).1⟩

end FFQ
